import Mathlib

/-!
Verification development for the `treepro` command-line tool
(repository `davideblesse/treepro`, source file `src/treepro/cli.py`).

The development shallowly embeds the program: pure pieces of `cli.py`
become Lean functions, and the effectful body of the `treepro` command
(cli.py lines 74-200) becomes a function from an environment of
external collaborators (filesystem, prompt, clipboard, configuration
store) to the list of observable events the run performs, in order.

The module `treepro/tree.py` (functions `get_all_items`,
`gather_selected_files`, `get_full_project_tree_text/json/yaml`) is
used by `cli.py` but its source is not part of the repository snapshot
under verification; those functions are modelled from the
specification, as marked by their doc comments.  The three renderers
are kept abstract (fields of the environment) because no claim depends
on their internals.
-/

/-! ## Lexicographic string order

Python `sorted` on `str` compares strings lexicographically by code
point.  The built-in `String` order of Lean does not reduce in the
kernel, so we define the same order on the underlying character lists
and prove the order facts we need by hand. -/

/-- Strict lexicographic order on character lists, by code point
(the comparison Python `sorted` uses on `str`). -/
def sltL : List Char → List Char → Bool
  | [], [] => false
  | [], _ :: _ => true
  | _ :: _, [] => false
  | a :: as, b :: bs => if a < b then true else if b < a then false else sltL as bs

/-- Non-strict string order: `a` sorts no later than `b`. -/
def sle (a b : String) : Bool := !(sltL b.data a.data)

/-! ## Sorting

Python `sorted(selected_files)` (cli.py lines 166 and 171) sorts the
gathered paths; we model it with an insertion sort over `sle`. -/

/-- Insert a string into a list, keeping `sle` order. -/
def insStr (a : String) : List String → List String
  | [] => [a]
  | b :: l => if sle a b then a :: b :: l else b :: insStr a l

/-- Model of Python `sorted` on a list of strings (cli.py lines 166, 171). -/
def sortStr : List String → List String
  | [] => []
  | a :: l => insStr a (sortStr l)

/-! ## Filesystem model

A directory tree as it exists on disk.  A directory's `children` list
carries no canonical order: the order in which the operating system
enumerates a directory is modelled separately, by an enumeration
function `σ : List FSTree → List FSTree` that may permute each
children list (see `viewT`). -/

/-- One filesystem subtree: a file, or a directory with children. -/
inductive FSTree where
  | file (name : String)
  | dir (name : String) (children : List FSTree)
deriving Repr

/-- Base name of a filesystem node. -/
def FSTree.name : FSTree → String
  | .file n => n
  | .dir n _ => n

/-- Insert a subtree into a list sorted by `sle` on names. -/
def insTree (a : FSTree) : List FSTree → List FSTree
  | [] => [a]
  | b :: l => if sle a.name b.name then a :: b :: l else b :: insTree a l

/-- Sort sibling subtrees by name (the stable lexicographic sibling
order the Tree Builder uses, spec section 4.2). -/
def sortByName : List FSTree → List FSTree
  | [] => []
  | a :: l => insTree a (sortByName l)

mutual
/-- Recursively sort every children list by name: the canonical form of
a tree, independent of enumeration order. -/
def normTree : FSTree → FSTree
  | .file n => .file n
  | .dir n cs => .dir n (sortByName (normList cs))
/-- List version of `normTree`. -/
def normList : List FSTree → List FSTree
  | [] => []
  | t :: ts => normTree t :: normList ts
end

/-- Boolean no-duplicates check on a list of strings. -/
def nodupStr : List String → Bool
  | [] => true
  | a :: l => !(decide (a ∈ l)) && nodupStr l

mutual
/-- Every directory of the subtree has pairwise distinct child names
(true of any real filesystem directory). -/
def wellNamedT : FSTree → Bool
  | .file _ => true
  | .dir _ cs => nodupStr (cs.map FSTree.name) && wellNamedL cs
/-- List version of `wellNamedT`. -/
def wellNamedL : List FSTree → Bool
  | [] => true
  | t :: ts => wellNamedT t && wellNamedL ts
end

mutual
/-- The tree as the operating system presents it to a traversal:
each children list passes through the enumeration function `σ`
(the unspecified order `os.listdir` reports entries in). -/
def viewT (σ : List FSTree → List FSTree) : FSTree → FSTree
  | .file n => .file n
  | .dir n cs => .dir n (σ (viewL σ cs))
/-- List version of `viewT`. -/
def viewL (σ : List FSTree → List FSTree) : List FSTree → List FSTree
  | [] => []
  | t :: ts => viewT σ t :: viewL σ ts
end

/-- An enumeration function only reorders a directory listing. -/
def IsEnum (σ : List FSTree → List FSTree) : Prop :=
  ∀ l, List.Perm (σ l) l

/-! ## The numbered index (Entry, get_all_items)

Modelled from the spec: `get_all_items` lives in `treepro/tree.py`,
which is not part of the source snapshot; only its caller `cli.py`
(lines 6-12 and 118) is.  Spec sections 3 and 4.2 describe it: a
depth-first traversal, parent before children, siblings in stable
lexicographic name order, assigning consecutive integer identifiers,
recording path, depth (0 for the top level), a directory flag and the
parent identifier. -/

/-- One numbered entry of the Index (spec section 3, and the dict
fields `cli.py` reads at lines 126-128). -/
structure Entry where
  identifier : Nat
  path : String
  depth : Nat
  is_dir : Bool
  parent_identifier : Option Nat
deriving Repr, DecidableEq

/-- Model of `os.path.join` for the paths the traversal builds. -/
def joinP (base n : String) : String := base ++ "/" ++ n

mutual
/-- Modelled from the spec: traverse one (already sibling-sorted)
subtree, assigning the next unused identifier to the node itself and
then to its descendants, parent before children. -/
def buildOne (base : String) (depth : Nat) (par : Option Nat) (next : Nat) :
    FSTree → Nat × List Entry
  | .file n =>
      (next + 1,
        [{ identifier := next, path := joinP base n, depth := depth,
           is_dir := false, parent_identifier := par }])
  | .dir n cs =>
      ((buildMany (joinP base n) (depth + 1) (some next) (next + 1) cs).1,
        { identifier := next, path := joinP base n, depth := depth,
          is_dir := true, parent_identifier := par }
          :: (buildMany (joinP base n) (depth + 1) (some next) (next + 1) cs).2)
/-- Modelled from the spec: traverse sibling subtrees left to right,
threading the identifier counter. -/
def buildMany (base : String) (depth : Nat) (par : Option Nat) (next : Nat) :
    List FSTree → Nat × List Entry
  | [] => (next, [])
  | t :: ts =>
      ((buildMany base depth par (buildOne base depth par next t).1 ts).1,
        (buildOne base depth par next t).2
          ++ (buildMany base depth par (buildOne base depth par next t).1 ts).2)
end

/-- Modelled from the spec: `get_all_items` (spec section 4.2) builds
the numbered Index of the project directory.  `σ` is the order the
operating system enumerates each directory in; the traversal sorts
every sibling list by name before numbering, which `sortByName` and
`normList` apply to the observed tree up front. -/
def get_all_items (σ : List FSTree → List FSTree) (root : String)
    (ts : List FSTree) : List Entry :=
  (buildMany root 0 none 1 (sortByName (normList (σ (viewL σ ts))))).2

/-! ## Order lemmas for sibling sorting -/

/-- Sibling order: compare subtrees by name. -/
def nameLe (x y : FSTree) : Prop := sle x.name y.name = true

/-! ## Selection resolution (gather_selected_files)

Modelled from the spec: `gather_selected_files` (spec section 4.4,
Selection Resolver) lives in `treepro/tree.py`, whose source is not in
the snapshot; only its call site (cli.py line 164) is. -/

/-- Walk the parent chain upward from a parent pointer, collecting the
identifiers met.  The walk carries a fuel bound; in a built Index a
parent identifier is strictly smaller than its child identifier, so
fuel equal to the entry identifier always suffices (see
`ancIds_iff`). -/
def ancIds (items : List Entry) : Nat → Option Nat → List Nat
  | _, none => []
  | 0, some _ => []
  | fuel + 1, some pid =>
      pid :: ((items.find? (fun e => e.identifier == pid)).elim []
        (fun e => ancIds items fuel e.parent_identifier))

/-- Modelled from the spec: `gather_selected_files` resolves a
Selection against the Index.  For each selected identifier: unknown
identifiers are skipped; a file contributes its path; a directory
contributes the paths of every file-type entry whose ancestor chain
via `parent_identifier` passes through it; the result is
deduplicated. -/
def gather_selected_files (items : List Entry) (selected : List Nat) : List String :=
  (selected.flatMap fun n =>
    (items.find? (fun e => e.identifier == n)).elim []
      (fun e =>
        if e.is_dir then
          (items.filter fun f =>
            !f.is_dir
              && decide (e.identifier ∈ ancIds items f.identifier f.parent_identifier)).map
            (fun f => f.path)
        else [e.path])).dedup

/-- The identifier `d` occurs on the ancestor chain followed from a
parent pointer via `parent_identifier` back-references. -/
inductive AncP (items : List Entry) (d : Nat) : Option Nat → Prop
  | here : AncP items d (some d)
  | deeper {e : Entry} : e ∈ items → AncP items d e.parent_identifier →
      AncP items d (some e.identifier)

/-- The entry `f` lies in the descendant closure of the directory with
identifier `d`: the ancestor chain of `f` via `parent_identifier`
passes through `d` (the wording of spec section 4.4). -/
def Ancestor (items : List Entry) (d : Nat) (f : Entry) : Prop :=
  AncP items d f.parent_identifier

/-! ## The CLI pipeline (cli.py lines 74-200)

The body of the `treepro` command is embedded as a function from an
environment of external collaborators to the ordered list of
observable events of the run.  `click.ClickException` (a fatal report
and a non-zero process exit) is the `Ev.err` event, always last in a
trace.  The `echo_and_capture` buffer (cli.py lines 93-96) is threaded
through as explicit `List String` values. -/

/-- Command-line arguments of the `treepro` command (cli.py 34-74). -/
structure Args where
  directory : String
  output : String
  file_flag : Option String
  config_name : Option String
  edit_config : Bool
  save_config_name : Option String
deriving Repr, DecidableEq

/-- External collaborators: filesystem, renderers from `tree.py`
(abstract), configuration store as loaded by `load_configs`, prompt
result, file reader, clipboard (`none` = success, `some m` =
`PyperclipException` with message `m`), and the order the operating
system enumerates directories in. -/
structure Env where
  isdir : String → Bool
  cwd : String
  renderText : String → String
  renderJson : String → String
  renderYaml : String → String
  configs : List (String × List Nat)
  promptResult : Option (List Nat)
  readFile : String → Except String String
  clipboard : String → Option String
  listDir : List FSTree → List FSTree
  fs : String → List FSTree

/-- Observable events of one run, in program order. -/
inductive Ev where
  | echo (s : String)
  | render (fmt : String) (dir : String)
  | loadConfigs
  | buildIndex (dir : String)
  | prompt (preset : List Nat)
  | saveCfg (store : List (String × List Nat))
  | readF (p : String)
  | clipTry (text : String)
  | fileW (path : String) (text : String)
  | err (msg : String)
deriving Repr, DecidableEq

/-- Event is a file read. -/
def Ev.isReadF : Ev → Bool
  | .readF _ => true
  | _ => false

/-- Event is a renderer call. -/
def Ev.isRender : Ev → Bool
  | .render _ _ => true
  | _ => false

/-- Event is a fatal error report. -/
def Ev.isErr : Ev → Bool
  | .err _ => true
  | _ => false

/-- Model of Python `"\n".join`. -/
def joinN : List String → String
  | [] => ""
  | [s] => s
  | s :: s' :: rest => s ++ "\n" ++ joinN (s' :: rest)

/-- Model of `os.path.relpath(p, root)` for the paths this program
builds, which always extend `root` by a separator: drop the root and
the separator. -/
def relTo (root p : String) : String :=
  String.mk (p.data.drop (root.data.length + 1))

/-- Model of POSIX `os.path.isabs`. -/
def isAbs (f : String) : Bool :=
  match f.data with
  | '/' :: _ => true
  | _ => false

/-- Python `str` of a list of ints, as echoed at cli.py line 134. -/
def fmtSel (sel : List Nat) : String := toString sel

/-- Project structure text by output format (cli.py lines 99-104). -/
def projectText (env : Env) (fmt pd : String) : String :=
  if fmt == "json" then env.renderJson pd
  else if fmt == "yaml" then env.renderYaml pd
  else env.renderText pd

/-- Per-file separator header (cli.py line 173). -/
def hdrLine (rel : String) : String := "\n--- " ++ rel ++ " ---\n"

/-- One file content slot: the decoded text, or the inline error
substitution (cli.py lines 174-178). -/
def bodyLine (read : String → Except String String) (root p : String) : String :=
  match read p with
  | .ok c => c
  | .error e => "Error reading " ++ relTo root p ++ ": " ++ e

/-- The `parts` list of cli.py lines 170-178: for each selected file in
sorted order, a separator header then the content slot. -/
def collectParts (read : String → Except String String) (root : String)
    (files : List String) : List String :=
  (sortStr files).flatMap fun p => [hdrLine (relTo root p), bodyLine read root p]

/-- The `SELECTED FILES:` listing lines (cli.py lines 166-167). -/
def listingLines (root : String) (files : List String) : List String :=
  (sortStr files).map fun p => "- " ++ relTo root p

/-- Python dict update `configs[name] = {"items": selected}`. -/
def upsert (store : List (String × List Nat)) (k : String) (v : List Nat) :
    List (String × List Nat) :=
  if store.any (fun kv => kv.1 == k) then
    store.map (fun kv => if kv.1 == k then (k, v) else kv)
  else store ++ [(k, v)]

/-- The preset selection loaded from a named profile (cli.py 112-115). -/
def presetOf (env : Env) (a : Args) : List Nat :=
  match a.config_name with
  | some cn => (env.configs.lookup cn).getD []
  | none => []

/-- Captured lines of the selection step (cli.py lines 132-147): the
`Using configuration` line when a profile is used non-interactively. -/
def selMsgs (env : Env) (a : Args) : List String :=
  match a.config_name, a.edit_config with
  | some cn, false => ["Using configuration " ++ cn ++ ": " ++ fmtSel (presetOf env a)]
  | _, _ => []

/-- Events of the selection step: the profile echo, or the prompt. -/
def selEvs (env : Env) (a : Args) : List Ev :=
  match a.config_name, a.edit_config with
  | some cn, false =>
      [.echo ("Using configuration " ++ cn ++ ": " ++ fmtSel (presetOf env a))]
  | _, _ => [.prompt (presetOf env a)]

/-- The selection the run proceeds with (cli.py lines 132-147);
a cancelled prompt (`None`) and an empty list behave alike. -/
def selOf (env : Env) (a : Args) : List Nat :=
  match a.config_name, a.edit_config with
  | some _, false => presetOf env a
  | _, _ => env.promptResult.getD []

/-- Captured lines of the profile-saving step (cli.py 154-161). -/
def saveMsgs (a : Args) : List String :=
  (match a.save_config_name with
   | some s => ["Configurazione " ++ s ++ " salvata."]
   | none => []) ++
  (match a.config_name, a.edit_config with
   | some cn, true => ["Configurazione " ++ cn ++ " aggiornata."]
   | _, _ => [])

/-- Events of the profile-saving step (cli.py 154-161): each
`save_configs` call records the whole store it writes. -/
def saveEvs (env : Env) (a : Args) (sel : List Nat) : List Ev :=
  match a.save_config_name with
  | some s =>
      [.saveCfg (upsert env.configs s sel),
       .echo ("Configurazione " ++ s ++ " salvata.")] ++
      (match a.config_name, a.edit_config with
       | some cn, true =>
           [.saveCfg (upsert (upsert env.configs s sel) cn sel),
            .echo ("Configurazione " ++ cn ++ " aggiornata.")]
       | _, _ => [])
  | none =>
      match a.config_name, a.edit_config with
      | some cn, true =>
          [.saveCfg (upsert env.configs cn sel),
           .echo ("Configurazione " ++ cn ++ " aggiornata.")]
      | _, _ => []

/-- Captured lines of the structure display (cli.py 106-107). -/
def structLines (env : Env) (a : Args) (pd : String) : List String :=
  ["PROJECT STRUCTURE :", projectText env a.output pd]

/-- Events up to and including loading the configuration store
(cli.py 99-110). -/
def structEvs (env : Env) (a : Args) (pd : String) : List Ev :=
  [.render a.output pd, .echo "PROJECT STRUCTURE :",
   .echo (projectText env a.output pd), .loadConfigs]

/-- Clipboard success message (cli.py line 188). -/
def okClipMsg : String :=
  "\nContents of project structure + selected files copied to clipboard."

/-- Header separating the captured lines from the content block in the
clipboard text and the saved file (cli.py lines 184-186 and 197). -/
def contentHdr : String := "\n\nCONTENT OF SELECTED FILES:\n"

/-- The capture buffer contents when the emission stage starts:
structure display plus the selection-step line. -/
def preLinesOf (env : Env) (a : Args) (pd : String) : List String :=
  structLines env a pd ++ selMsgs env a

/-- The resolved file set of the run. -/
def filesOf (env : Env) (a : Args) (pd : String) : List String :=
  gather_selected_files (get_all_items env.listDir pd (env.fs pd)) (selOf env a)

/-- The capture buffer contents at clipboard time (the
`output_lines` of cli.py line 184): structure, selection line, save
lines, then the `SELECTED FILES:` header and listing. -/
def linesTwo (env : Env) (a : Args) (pd : String) (files : List String) : List String :=
  preLinesOf env a pd ++ saveMsgs a ++ "\nSELECTED FILES:" :: listingLines pd files

/-- The text handed to the clipboard (cli.py lines 184-186). -/
def clipTextOf (env : Env) (a : Args) (pd : String) (files : List String) : String :=
  joinN (linesTwo env a pd files) ++ contentHdr
    ++ joinN (collectParts env.readFile pd files)

/-- The clipboard status line captured after the attempt
(cli.py lines 188 and 190). -/
def statusOf (env : Env) (a : Args) (pd : String) (files : List String) : String :=
  match env.clipboard (clipTextOf env a pd files) with
  | none => okClipMsg
  | some e => "\nFailed to copy to clipboard: " ++ e

/-- The text written to the output file (cli.py line 197): the capture
buffer now also holds the clipboard status line. -/
def fileTextOf (env : Env) (a : Args) (pd : String) (files : List String) : String :=
  joinN (linesTwo env a pd files ++ [statusOf env a pd files]) ++ contentHdr
    ++ joinN (collectParts env.readFile pd files)

/-- The resolved output file path (cli.py lines 195-196). -/
def filePathOf (env : Env) (f : String) : String :=
  if isAbs f then f else joinP env.cwd f

/-- Steps 4-7 of the run (cli.py lines 153-200): save profiles, gather
and list the selected files, collect contents, attempt the clipboard,
and write the output file when requested.  `preLines` is the capture
buffer contents when this stage starts. -/
def emission (env : Env) (a : Args) (pd : String) (outFile : Option String)
    (preLines : List String) (items : List Entry) (sel : List Nat) : List Ev :=
  let files := gather_selected_files items sel
  let lines2 := preLines ++ saveMsgs a ++ "\nSELECTED FILES:" :: listingLines pd files
  let content := joinN (collectParts env.readFile pd files)
  let ct := joinN lines2 ++ contentHdr ++ content
  let status := match env.clipboard ct with
    | none => okClipMsg
    | some e => "\nFailed to copy to clipboard: " ++ e
  saveEvs env a sel
    ++ (Ev.echo "\nSELECTED FILES:") :: (listingLines pd files).map Ev.echo
    ++ (sortStr files).map Ev.readF
    ++ [.clipTry ct, .echo status]
    ++ (match outFile with
        | none => []
        | some f =>
            let fp := if isAbs f then f else joinP env.cwd f
            [.fileW fp (joinN (lines2 ++ [status]) ++ contentHdr ++ content),
             .echo ("\nContents of selected files saved to: " ++ fp)])

/-- Steps 2-7 once the configuration store has been checked
(cli.py lines 117-200): build the Index, stop on an empty Index or an
empty selection, otherwise emit. -/
def mainBody (env : Env) (a : Args) (pd : String) (outFile : Option String) : List Ev :=
  let items := get_all_items env.listDir pd (env.fs pd)
  if items = [] then
    structEvs env a pd
      ++ [.buildIndex pd, .echo "No files found (or all files are ignored)."]
  else
    let sel := selOf env a
    if sel = [] then
      structEvs env a pd ++ [.buildIndex pd] ++ selEvs env a
        ++ [.echo "No items selected."]
    else
      structEvs env a pd ++ [.buildIndex pd] ++ selEvs env a
        ++ emission env a pd outFile (preLinesOf env a pd) items sel

/-- The run after the directory/output-file disambiguation: render and
display the structure, load the configuration store, fail on an
unknown profile name (cli.py lines 112-114), else continue. -/
def runMain (env : Env) (a : Args) (pd : String) (outFile : Option String) : List Ev :=
  match a.config_name with
  | some cn =>
      if (env.configs.lookup cn).isSome then mainBody env a pd outFile
      else structEvs env a pd ++ [.err ("Configurazione " ++ cn ++ " non trovata.")]
  | none => mainBody env a pd outFile

/-- The whole `treepro` command (cli.py lines 74-200), beginning with
the directory-vs-output-filename disambiguation of lines 79-90. -/
def treeproRun (env : Env) (a : Args) : List Ev :=
  match a.file_flag with
  | some ff =>
      if env.isdir a.directory then runMain env a a.directory (some ff)
      else runMain env a "." (some a.directory)
  | none =>
      if env.isdir a.directory then runMain env a a.directory none
      else [.err ("Directory " ++ a.directory ++ " does not exist.")]

/-- The named profile, when one is requested, exists in the store
(otherwise cli.py line 114 raises before the Index is built). -/
def ConfigOk (env : Env) (a : Args) : Prop :=
  ∀ cn, a.config_name = some cn → (env.configs.lookup cn).isSome = true

/-- A small concrete project tree used to instantiate theorems. -/
def tsDemo : List FSTree :=
  [FSTree.dir "sub" [FSTree.file "b.txt", FSTree.file "a.txt"], FSTree.file "top.txt"]

/-- A concrete environment used to instantiate theorems: every
collaborator succeeds. -/
def envA : Env where
  isdir := fun _ => true
  cwd := "/cwd"
  renderText := fun _ => "TREE"
  renderJson := fun _ => "JSONTREE"
  renderYaml := fun _ => "YAMLTREE"
  configs := []
  promptResult := some [1]
  readFile := fun _ => Except.ok "CONTENT"
  clipboard := fun _ => none
  listDir := fun l => l
  fs := fun _ => tsDemo

/-- Concrete default arguments used to instantiate theorems. -/
def argsA : Args where
  directory := "."
  output := "text"
  file_flag := none
  config_name := none
  edit_config := false
  save_config_name := none

/-! ## Theorems -/

theorem sltL_asymm : ∀ l₁ l₂ : List Char, sltL l₁ l₂ = true → sltL l₂ l₁ = false
  | [], [] => by simp [sltL]
  | [], _ :: _ => by simp [sltL]
  | _ :: _, [] => by simp [sltL]
  | a :: as, b :: bs => by
      intro h
      by_cases h₁ : a < b
      · simp only [sltL, if_neg (lt_asymm h₁), if_pos h₁]
      · by_cases h₂ : b < a
        · simp [sltL, if_neg h₁, if_pos h₂] at h
        · simp only [sltL, if_neg h₁, if_neg h₂] at h ⊢
          exact sltL_asymm as bs h

theorem sltL_eq_of_not_lt : ∀ l₁ l₂ : List Char,
    sltL l₁ l₂ = false → sltL l₂ l₁ = false → l₁ = l₂
  | [], [] => by simp
  | [], _ :: _ => by simp [sltL]
  | _ :: _, [] => by simp [sltL]
  | a :: as, b :: bs => by
      intro h₁ h₂
      by_cases hab : a < b
      · simp [sltL, if_pos hab] at h₁
      · by_cases hba : b < a
        · simp [sltL, if_pos hba] at h₂
        · have hEq : a = b := le_antisymm (le_of_not_lt hba) (le_of_not_lt hab)
          subst hEq
          simp only [sltL, if_neg hab, if_neg hba] at h₁ h₂
          rw [sltL_eq_of_not_lt as bs h₁ h₂]

theorem sltL_trans : ∀ l₁ l₂ l₃ : List Char,
    sltL l₁ l₂ = true → sltL l₂ l₃ = true → sltL l₁ l₃ = true
  | [], [], _ => by simp [sltL]
  | [], _ :: _, [] => by simp [sltL]
  | [], _ :: _, _ :: _ => by simp [sltL]
  | _ :: _, [], _ => by simp [sltL]
  | _ :: _, _ :: _, [] => by simp [sltL]
  | a :: as, b :: bs, c :: cs => by
      intro h₁ h₂
      by_cases hbc : b < c
      · by_cases hab : a < b
        · simp only [sltL, if_pos (lt_trans hab hbc)]
        · by_cases hba : b < a
          · simp [sltL, if_neg hab, if_pos hba] at h₁
          · have hEq : a = b := le_antisymm (le_of_not_lt hba) (le_of_not_lt hab)
            subst hEq
            simp only [sltL, if_pos hbc]
      · by_cases hcb : c < b
        · simp [sltL, if_neg hbc, if_pos hcb] at h₂
        · have hEq : b = c := le_antisymm (le_of_not_lt hcb) (le_of_not_lt hbc)
          subst hEq
          by_cases hab : a < b
          · simp only [sltL, if_pos hab]
          · by_cases hba : b < a
            · simp [sltL, if_neg hab, if_pos hba] at h₁
            · simp only [sltL, if_neg hab, if_neg hba] at h₁ ⊢
              simp only [sltL, if_neg hbc] at h₂
              exact sltL_trans as bs cs h₁ h₂

theorem string_eq_of_data_eq {a b : String} (h : a.data = b.data) : a = b :=
  congrArg String.mk h

theorem sle_total (a b : String) : sle a b = true ∨ sle b a = true := by
  unfold sle
  by_cases h : sltL b.data a.data = true
  · right; simp [sltL_asymm _ _ h]
  · left; simp only [Bool.not_eq_true] at h; simp [h]

theorem sle_antisymm {a b : String} (h₁ : sle a b = true) (h₂ : sle b a = true) :
    a = b := by
  unfold sle at h₁ h₂
  simp only [Bool.not_eq_true'] at h₁ h₂
  exact string_eq_of_data_eq (sltL_eq_of_not_lt _ _ h₂ h₁)

theorem sle_trans {a b c : String} (h₁ : sle a b = true) (h₂ : sle b c = true) :
    sle a c = true := by
  unfold sle at h₁ h₂ ⊢
  simp only [Bool.not_eq_true'] at h₁ h₂ ⊢
  cases hab : sltL a.data b.data with
  | true =>
      cases hca : sltL c.data a.data with
      | true => exact absurd (sltL_trans _ _ _ hca hab) (by simp [h₂])
      | false => rfl
  | false =>
      have hEq : a.data = b.data := sltL_eq_of_not_lt _ _ hab h₁
      rw [← hEq] at h₂
      exact h₂

theorem insStr_perm (a : String) : ∀ l : List String, List.Perm (insStr a l) (a :: l)
  | [] => List.Perm.refl _
  | b :: l => by
      unfold insStr
      by_cases h : sle a b = true
      · simp [h]
      · simp only [h, if_false]
        exact List.Perm.trans ((insStr_perm a l).cons b) (List.Perm.swap a b l)

theorem sortStr_perm : ∀ l : List String, List.Perm (sortStr l) l
  | [] => List.Perm.refl _
  | a :: l => List.Perm.trans (insStr_perm a (sortStr l)) ((sortStr_perm l).cons a)

theorem insStr_pairwise (a : String) : ∀ l : List String,
    l.Pairwise (fun x y => sle x y = true) →
    (insStr a l).Pairwise (fun x y => sle x y = true)
  | [], _ => by simp [insStr]
  | b :: l, h => by
      rcases List.pairwise_cons.mp h with ⟨hb, hl⟩
      by_cases hab : sle a b = true
      · rw [insStr, if_pos hab]
        refine List.pairwise_cons.mpr ⟨?_, h⟩
        intro x hx
        rcases List.mem_cons.mp hx with rfl | hx
        · exact hab
        · exact sle_trans hab (hb x hx)
      · have hba : sle b a = true := by
          rcases sle_total a b with h' | h'
          · exact absurd h' hab
          · exact h'
        rw [insStr, if_neg hab]
        refine List.pairwise_cons.mpr ⟨?_, insStr_pairwise a l hl⟩
        intro x hx
        have := (insStr_perm a l).mem_iff.mp hx
        rcases List.mem_cons.mp this with rfl | hx'
        · exact hba
        · exact hb x hx'

theorem sortStr_pairwise : ∀ l : List String,
    (sortStr l).Pairwise (fun x y => sle x y = true)
  | [] => by simp [sortStr]
  | a :: l => insStr_pairwise a (sortStr l) (sortStr_pairwise l)

theorem insTree_perm (a : FSTree) : ∀ l : List FSTree,
    List.Perm (insTree a l) (a :: l)
  | [] => List.Perm.refl _
  | b :: l => by
      unfold insTree
      by_cases h : sle a.name b.name = true
      · simp [h]
      · simp only [h, if_false]
        exact List.Perm.trans ((insTree_perm a l).cons b) (List.Perm.swap a b l)

theorem sortByName_perm : ∀ l : List FSTree, List.Perm (sortByName l) l
  | [] => List.Perm.refl _
  | a :: l => List.Perm.trans (insTree_perm a (sortByName l)) ((sortByName_perm l).cons a)

theorem insTree_pairwise (a : FSTree) : ∀ l : List FSTree,
    l.Pairwise nameLe → (insTree a l).Pairwise nameLe
  | [], _ => by simp [insTree, List.pairwise_cons]
  | b :: l, h => by
      rcases List.pairwise_cons.mp h with ⟨hb, hl⟩
      by_cases hab : sle a.name b.name = true
      · rw [insTree, if_pos hab]
        refine List.pairwise_cons.mpr ⟨?_, h⟩
        intro x hx
        rcases List.mem_cons.mp hx with rfl | hx
        · exact hab
        · exact sle_trans hab (hb x hx)
      · have hba : nameLe b a := by
          rcases sle_total a.name b.name with h' | h'
          · exact absurd h' hab
          · exact h'
        rw [insTree, if_neg hab]
        refine List.pairwise_cons.mpr ⟨?_, insTree_pairwise a l hl⟩
        intro x hx
        have := (insTree_perm a l).mem_iff.mp hx
        rcases List.mem_cons.mp this with rfl | hx'
        · exact hba
        · exact hb x hx'

theorem sortByName_pairwise : ∀ l : List FSTree, (sortByName l).Pairwise nameLe
  | [] => by simp [sortByName]
  | a :: l => insTree_pairwise a (sortByName l) (sortByName_pairwise l)

theorem nodupStr_iff : ∀ l : List String, nodupStr l = true ↔ l.Nodup
  | [] => by simp [nodupStr]
  | a :: l => by
      simp [nodupStr, List.nodup_cons, ← nodupStr_iff l]

/-- Two sibling lists that are permutations of each other, both sorted
by name, with no duplicate names, are equal: sorting makes the sibling
order canonical. -/
theorem sorted_perm_eq : ∀ m₁ m₂ : List FSTree, List.Perm m₁ m₂ →
    m₁.Pairwise nameLe → m₂.Pairwise nameLe →
    (m₁.map FSTree.name).Nodup → m₁ = m₂
  | [], m₂, h, _, _, _ => (h.symm.eq_nil).symm
  | a :: t₁, [], h, _, _, _ => absurd h.eq_nil (by simp)
  | a :: t₁, b :: t₂, h, hp₁, hp₂, hnd => by
      rcases List.pairwise_cons.mp hp₁ with ⟨ha, hp₁'⟩
      rcases List.pairwise_cons.mp hp₂ with ⟨hb, hp₂'⟩
      rcases List.nodup_cons.mp hnd with ⟨hna, hnd'⟩
      have hab : a = b := by
        have haM : a ∈ b :: t₂ := h.mem_iff.mp (List.mem_cons_self a t₁)
        rcases List.mem_cons.mp haM with rfl | haT
        · rfl
        · have hbM : b ∈ a :: t₁ := h.symm.mem_iff.mp (List.mem_cons_self b t₂)
          rcases List.mem_cons.mp hbM with rfl | hbT
          · rfl
          · have h₁ : sle a.name b.name = true := ha b hbT
            have h₂ : sle b.name a.name = true := hb a haT
            have hname : a.name = b.name := sle_antisymm h₁ h₂
            exact absurd (List.mem_map_of_mem FSTree.name hbT)
              (by rw [← hname]; exact hna)
      subst hab
      have ht : t₁ = t₂ := sorted_perm_eq t₁ t₂ h.cons_inv hp₁' hp₂' hnd'
      rw [ht]

/-! ## Canonical form and enumeration invariance -/

theorem normTree_name : ∀ t : FSTree, (normTree t).name = t.name
  | .file _ => rfl
  | .dir _ _ => rfl

theorem normList_map : ∀ ts : List FSTree, normList ts = ts.map normTree
  | [] => rfl
  | t :: ts => by simp [normList, normList_map ts]

theorem map_name_normList (ts : List FSTree) :
    (normList ts).map FSTree.name = ts.map FSTree.name := by
  rw [normList_map, List.map_map]
  exact List.map_congr_left fun t _ => normTree_name t

/-- Sorting a permuted children list of a directory with distinct
child names gives back the canonical sorted list. -/
theorem sortByName_of_perm {l₁ l₂ : List FSTree} (h : List.Perm l₁ l₂)
    (hnd : (l₂.map FSTree.name).Nodup) : sortByName l₁ = sortByName l₂ := by
  refine sorted_perm_eq _ _ ?_ (sortByName_pairwise l₁) (sortByName_pairwise l₂) ?_
  · exact ((sortByName_perm l₁).trans h).trans (sortByName_perm l₂).symm
  · have : List.Perm ((sortByName l₁).map FSTree.name) (l₂.map FSTree.name) :=
      ((sortByName_perm l₁).trans h).map FSTree.name
    exact this.nodup_iff.mpr hnd

mutual
/-- Presenting a well-named tree through any enumeration order and then
canonically sorting gives the same canonical tree: the sibling sort
erases the enumeration order. -/
theorem normTree_viewT : ∀ (t : FSTree) (σ : List FSTree → List FSTree),
    IsEnum σ → wellNamedT t = true → normTree (viewT σ t) = normTree t
  | .file _, _, _, _ => rfl
  | .dir n cs, σ, hσ, hw => by
      simp only [wellNamedT, Bool.and_eq_true] at hw
      rcases hw with ⟨hnd, hwl⟩
      have hcs : normList (viewL σ cs) = normList cs :=
        normList_viewL cs σ hσ hwl
      have hperm : List.Perm (normList (σ (viewL σ cs))) (normList cs) := by
        rw [normList_map, ← hcs, normList_map]
        exact (hσ (viewL σ cs)).map normTree
      have hndn : ((normList cs).map FSTree.name).Nodup := by
        rw [map_name_normList]
        exact (nodupStr_iff _).mp hnd
      show FSTree.dir n (sortByName (normList (σ (viewL σ cs))))
          = FSTree.dir n (sortByName (normList cs))
      rw [sortByName_of_perm hperm hndn]
/-- List version of `normTree_viewT`. -/
theorem normList_viewL : ∀ (ts : List FSTree) (σ : List FSTree → List FSTree),
    IsEnum σ → wellNamedL ts = true → normList (viewL σ ts) = normList ts
  | [], _, _, _ => rfl
  | t :: ts, σ, hσ, hw => by
      simp only [wellNamedL, Bool.and_eq_true] at hw
      rcases hw with ⟨hwt, hwl⟩
      show normTree (viewT σ t) :: normList (viewL σ ts) = normTree t :: normList ts
      rw [normTree_viewT t σ hσ hwt, normList_viewL ts σ hσ hwl]
end

/-- The sorted canonical input the traversal numbers is independent of
the enumeration order. -/
theorem buildInput_indep (σ : List FSTree → List FSTree) (hσ : IsEnum σ)
    (ts : List FSTree) (hw : wellNamedL ts = true)
    (hnd : nodupStr (ts.map FSTree.name) = true) :
    sortByName (normList (σ (viewL σ ts))) = sortByName (normList ts) := by
  have hcs : normList (viewL σ ts) = normList ts := normList_viewL ts σ hσ hw
  have hperm : List.Perm (normList (σ (viewL σ ts))) (normList ts) := by
    rw [normList_map, ← hcs, normList_map]
    exact (hσ (viewL σ ts)).map normTree
  have hndn : ((normList ts).map FSTree.name).Nodup := by
    rw [map_name_normList]
    exact (nodupStr_iff _).mp hnd
  exact sortByName_of_perm hperm hndn

/-! ## Well-formedness of the built Index -/

mutual
theorem buildOne_ids : ∀ (t : FSTree) (base : String) (d : Nat) (par : Option Nat)
    (next : Nat),
    (buildOne base d par next t).1 = next + (buildOne base d par next t).2.length
    ∧ (buildOne base d par next t).2.map (fun e => e.identifier)
        = List.range' next (buildOne base d par next t).2.length
  | .file n, base, d, par, next => by
      simp [buildOne, List.range']
  | .dir n cs, base, d, par, next => by
      obtain ⟨h1, h2⟩ := buildMany_ids cs (joinP base n) (d + 1) (some next) (next + 1)
      constructor
      · simp only [buildOne, List.length_cons]
        omega
      · simp only [buildOne, List.map_cons, h2, List.length_cons]
        rw [List.range'_succ]
theorem buildMany_ids : ∀ (ts : List FSTree) (base : String) (d : Nat) (par : Option Nat)
    (next : Nat),
    (buildMany base d par next ts).1 = next + (buildMany base d par next ts).2.length
    ∧ (buildMany base d par next ts).2.map (fun e => e.identifier)
        = List.range' next (buildMany base d par next ts).2.length
  | [], base, d, par, next => by
      simp [buildMany, List.range']
  | t :: ts, base, d, par, next => by
      obtain ⟨h1, h2⟩ := buildOne_ids t base d par next
      obtain ⟨h3, h4⟩ := buildMany_ids ts base d par (buildOne base d par next t).1
      constructor
      · simp only [buildMany, List.length_append]
        omega
      · simp only [buildMany, List.map_append, List.length_append]
        rw [h2, h4, h1]
        have h := List.range'_append next ((buildOne base d par next t).2.length)
          ((buildMany base d par (next + (buildOne base d par next t).2.length) ts).2.length) 1
        rw [Nat.one_mul] at h
        rw [h, Nat.add_comm]
end

theorem get_all_items_ids_nodup (σ : List FSTree → List FSTree) (root : String)
    (ts : List FSTree) :
    ((get_all_items σ root ts).map (fun e => e.identifier)).Nodup := by
  obtain ⟨h1, h2⟩ := buildMany_ids (sortByName (normList (σ (viewL σ ts)))) root 0 none 1
  rw [get_all_items, h2]
  exact List.nodup_range' _ _

mutual
theorem buildOne_parent_lt : ∀ (t : FSTree) (base : String) (d : Nat) (par : Option Nat)
    (next : Nat), (∀ p, par = some p → p < next) →
    ∀ e ∈ (buildOne base d par next t).2,
      ∀ p, e.parent_identifier = some p → p < e.identifier
  | .file n, base, d, par, next, hpar => by
      intro e he p hp
      simp only [buildOne, List.mem_singleton] at he
      subst he
      exact hpar p hp
  | .dir n cs, base, d, par, next, hpar => by
      intro e he p hp
      simp only [buildOne, List.mem_cons] at he
      rcases he with rfl | he'
      · exact hpar p hp
      · exact buildMany_parent_lt cs (joinP base n) (d + 1) (some next) (next + 1)
          (by intro q hq; cases hq; omega) e he' p hp
theorem buildMany_parent_lt : ∀ (ts : List FSTree) (base : String) (d : Nat)
    (par : Option Nat) (next : Nat), (∀ p, par = some p → p < next) →
    ∀ e ∈ (buildMany base d par next ts).2,
      ∀ p, e.parent_identifier = some p → p < e.identifier
  | [], base, d, par, next, hpar => by
      intro e he
      simp [buildMany] at he
  | t :: ts, base, d, par, next, hpar => by
      intro e he p hp
      simp only [buildMany, List.mem_append] at he
      rcases he with he' | he'
      · exact buildOne_parent_lt t base d par next hpar e he' p hp
      · refine buildMany_parent_lt ts base d par (buildOne base d par next t).1
          ?_ e he' p hp
        intro q hq
        have h1 := (buildOne_ids t base d par next).1
        have := hpar q hq
        omega
end

theorem get_all_items_parent_lt (σ : List FSTree → List FSTree) (root : String)
    (ts : List FSTree) :
    ∀ e ∈ get_all_items σ root ts,
      ∀ p, e.parent_identifier = some p → p < e.identifier := by
  intro e he
  exact buildMany_parent_lt _ root 0 none 1 (fun p h => nomatch h) e he

/-! ## Lookup by identifier and the ancestor-chain walk -/

theorem find_id_of_mem_nodup {items : List Entry} {e : Entry}
    (hnd : (items.map (fun x => x.identifier)).Nodup) (he : e ∈ items) :
    items.find? (fun x => x.identifier == e.identifier) = some e := by
  induction items with
  | nil => cases he
  | cons a l ih =>
      rcases List.mem_cons.mp he with rfl | he'
      · exact List.find?_cons_of_pos l (by simp)
      · have hnd' : (∀ x ∈ l, ¬x.identifier = a.identifier)
            ∧ (l.map fun x => x.identifier).Nodup := by
          simpa using hnd
        have hne : ¬(a.identifier == e.identifier) = true := by
          simp only [beq_iff_eq]
          intro hEq
          exact hnd'.1 e he' hEq.symm
        rw [List.find?_cons_of_neg l hne]
        exact ih hnd'.2 he'

theorem mem_unique_by_id {items : List Entry} {e e' : Entry}
    (hnd : (items.map (fun x => x.identifier)).Nodup)
    (he : e ∈ items) (he' : e' ∈ items) (hid : e.identifier = e'.identifier) :
    e = e' := by
  have h1 := find_id_of_mem_nodup hnd he
  have h2 := find_id_of_mem_nodup hnd he'
  rw [hid] at h1
  rw [h1] at h2
  exact Option.some.inj h2

theorem AncP_none_elim {items : List Entry} {d : Nat} (h : AncP items d none) :
    False := by
  cases h

/-- With enough fuel, the fuel-bounded parent-chain walk recognises
exactly the ancestor-chain relation, on an Index whose parent
identifiers are strictly smaller than child identifiers. -/
theorem ancIds_iff {items : List Entry}
    (hlt : ∀ e ∈ items, ∀ p, e.parent_identifier = some p → p < e.identifier)
    (hnd : (items.map (fun x => x.identifier)).Nodup) :
    ∀ (fuel : Nat) (pp : Option Nat) (d : Nat), (∀ p, pp = some p → p < fuel) →
      (d ∈ ancIds items fuel pp ↔ AncP items d pp) := by
  intro fuel
  induction fuel with
  | zero =>
      intro pp d hb
      cases pp with
      | none =>
          simp only [ancIds, List.not_mem_nil, false_iff]
          exact fun h => AncP_none_elim h
      | some pid => exact absurd (hb pid rfl) (Nat.not_lt_zero pid)
  | succ fuel ih =>
      intro pp d hb
      cases pp with
      | none =>
          simp only [ancIds, List.not_mem_nil, false_iff]
          exact fun h => AncP_none_elim h
      | some pid =>
          rw [ancIds]
          cases hfind : items.find? (fun e => e.identifier == pid) with
          | none =>
              simp only [Option.elim, List.mem_singleton]
              constructor
              · rintro rfl
                exact AncP.here
              · intro h
                cases h with
                | here => rfl
                | deeper he hanc =>
                    rename_i e
                    have := List.find?_eq_none.mp hfind e he
                    simp at this
          | some e =>
              simp only [Option.elim]
              have he : e ∈ items := List.mem_of_find?_eq_some hfind
              have hid : e.identifier = pid := by
                have := List.find?_some hfind
                simpa using this
              have hbound : ∀ p, e.parent_identifier = some p → p < fuel := by
                intro p hp
                have h1 := hlt e he p hp
                have h2 := hb pid rfl
                omega
              constructor
              · intro hmem
                rcases List.mem_cons.mp hmem with rfl | hrest
                · exact AncP.here
                · exact hid ▸ AncP.deeper he ((ih e.parent_identifier d hbound).mp hrest)
              · intro h
                cases h with
                | here => exact List.mem_cons_self _ _
                | deeper he' hanc =>
                    rename_i e'
                    have hEq : e' = e := mem_unique_by_id hnd he' he (by rw [hid])
                    exact List.mem_cons_of_mem _
                      ((ih e.parent_identifier d hbound).mpr (hEq ▸ hanc))

/-- Membership in the resolved file set, characterised declaratively:
a path is resolved exactly when some selected identifier names a file
with that path, or names a directory and some file-type entry with
that path has the directory on its ancestor chain. -/
theorem gather_mem_iff {items : List Entry} (sel : List Nat) (p : String)
    (hlt : ∀ e ∈ items, ∀ q, e.parent_identifier = some q → q < e.identifier)
    (hnd : (items.map (fun x => x.identifier)).Nodup) :
    p ∈ gather_selected_files items sel ↔
      ∃ e ∈ items, e.identifier ∈ sel ∧
        ((e.is_dir = false ∧ p = e.path)
          ∨ (e.is_dir = true ∧ ∃ f ∈ items, f.is_dir = false ∧ p = f.path
              ∧ Ancestor items e.identifier f)) := by
  rw [gather_selected_files, List.mem_dedup, List.mem_flatMap]
  constructor
  · rintro ⟨n, hn, hp⟩
    cases hfind : items.find? (fun e => e.identifier == n) with
    | none =>
        rw [hfind] at hp
        simp at hp
    | some e =>
        rw [hfind] at hp
        simp only [Option.elim] at hp
        have he : e ∈ items := List.mem_of_find?_eq_some hfind
        have hid : e.identifier = n := by
          have := List.find?_some hfind
          simpa using this
        by_cases hd : e.is_dir = true
        · rw [if_pos hd] at hp
          rcases List.mem_map.mp hp with ⟨f, hf, rfl⟩
          rcases List.mem_filter.mp hf with ⟨hfmem, hcond⟩
          simp only [Bool.and_eq_true, Bool.not_eq_true', decide_eq_true_eq] at hcond
          refine ⟨e, he, hid ▸ hn, Or.inr ⟨hd, f, hfmem, hcond.1, rfl, ?_⟩⟩
          exact (ancIds_iff hlt hnd f.identifier f.parent_identifier e.identifier
            (hlt f hfmem)).mp hcond.2
        · rw [if_neg hd] at hp
          rcases List.mem_singleton.mp hp with rfl
          exact ⟨e, he, hid ▸ hn,
            Or.inl ⟨by simpa using hd, rfl⟩⟩
  · rintro ⟨e, he, hsel, hcase⟩
    refine ⟨e.identifier, hsel, ?_⟩
    rw [find_id_of_mem_nodup hnd he]
    simp only [Option.elim]
    rcases hcase with ⟨hd, rfl⟩ | ⟨hd, f, hf, hfd, rfl, hanc⟩
    · rw [if_neg (by simp [hd])]
      exact List.mem_singleton.mpr rfl
    · rw [if_pos hd]
      refine List.mem_map.mpr ⟨f, List.mem_filter.mpr ⟨hf, ?_⟩, rfl⟩
      simp only [Bool.and_eq_true, Bool.not_eq_true', decide_eq_true_eq]
      exact ⟨hfd, (ancIds_iff hlt hnd f.identifier f.parent_identifier e.identifier
        (hlt f hf)).mpr hanc⟩

/-! ## Claim theorems for the Index and the Selection Resolver -/

/-- C1: for every built Index and every Selection, the resolved file
set contains, for each selected identifier naming a file, that file
path, and for each selected identifier naming a directory, exactly the
paths of the file-type entries whose ancestor chain via
`parent_identifier` passes through that directory; and the result is
deduplicated, so a file selected both directly and via an ancestor
directory appears exactly once. -/
theorem claim_C1_gather_resolution (σ : List FSTree → List FSTree) (root : String)
    (ts : List FSTree) (sel : List Nat) (p : String) :
    (p ∈ gather_selected_files (get_all_items σ root ts) sel ↔
      ∃ e ∈ get_all_items σ root ts, e.identifier ∈ sel ∧
        ((e.is_dir = false ∧ p = e.path)
          ∨ (e.is_dir = true ∧ ∃ f ∈ get_all_items σ root ts, f.is_dir = false
              ∧ p = f.path ∧ Ancestor (get_all_items σ root ts) e.identifier f)))
    ∧ (gather_selected_files (get_all_items σ root ts) sel).Nodup :=
  ⟨gather_mem_iff sel p (get_all_items_parent_lt σ root ts)
      (get_all_items_ids_nodup σ root ts),
   List.nodup_dedup _⟩

/-- C6: building the Index twice over an unchanged filesystem yields
identical entries, whatever order the operating system enumerates each
directory in: for any two enumeration orders, `get_all_items` produces
equal lists of (identifier, path, depth, is_dir, parent_identifier)
entries, provided sibling names are distinct as on a real
filesystem. -/
theorem claim_C6_build_deterministic (σ₁ σ₂ : List FSTree → List FSTree)
    (root : String) (ts : List FSTree) (h₁ : IsEnum σ₁) (h₂ : IsEnum σ₂)
    (hw : wellNamedL ts = true) (hnd : nodupStr (ts.map FSTree.name) = true) :
    get_all_items σ₁ root ts = get_all_items σ₂ root ts := by
  rw [get_all_items, get_all_items, buildInput_indep σ₁ h₁ ts hw hnd,
    buildInput_indep σ₂ h₂ ts hw hnd]

/-- Witness for C6: two concrete enumeration orders (reversed and
as-is) over the demo tree give the same Index. -/
theorem claim_C6_build_deterministic_witness :
    IsEnum (fun l : List FSTree => l.reverse)
    ∧ wellNamedL tsDemo = true
    ∧ nodupStr (tsDemo.map FSTree.name) = true
    ∧ get_all_items (fun l => l.reverse) "." tsDemo
        = get_all_items (fun l => l) "." tsDemo :=
  ⟨fun l => List.reverse_perm l, by decide, by decide,
   claim_C6_build_deterministic (fun l => l.reverse) (fun l => l) "." tsDemo
     (fun l => List.reverse_perm l) (fun l => List.Perm.refl l)
     (by decide) (by decide)⟩

/-! ## Trace structure of a run that reaches emission -/

theorem mainBody_reach (env : Env) (a : Args) (pd : String) (o : Option String)
    (hitems : get_all_items env.listDir pd (env.fs pd) ≠ [])
    (hsel : selOf env a ≠ []) :
    mainBody env a pd o = structEvs env a pd ++ [.buildIndex pd] ++ selEvs env a
      ++ (saveEvs env a (selOf env a)
        ++ (Ev.echo "\nSELECTED FILES:")
            :: (listingLines pd (filesOf env a pd)).map Ev.echo
        ++ (sortStr (filesOf env a pd)).map Ev.readF
        ++ [.clipTry (clipTextOf env a pd (filesOf env a pd)),
            .echo (statusOf env a pd (filesOf env a pd))]
        ++ (match o with
            | none => []
            | some f =>
                [.fileW (filePathOf env f) (fileTextOf env a pd (filesOf env a pd)),
                 .echo ("\nContents of selected files saved to: " ++ filePathOf env f)])) := by
  simp only [mainBody]
  rw [if_neg hitems, if_neg hsel]
  rfl

theorem runMain_reach (env : Env) (a : Args) (pd : String) (o : Option String)
    (hc : ConfigOk env a)
    (hitems : get_all_items env.listDir pd (env.fs pd) ≠ [])
    (hsel : selOf env a ≠ []) :
    runMain env a pd o = structEvs env a pd ++ [.buildIndex pd] ++ selEvs env a
      ++ (saveEvs env a (selOf env a)
        ++ (Ev.echo "\nSELECTED FILES:")
            :: (listingLines pd (filesOf env a pd)).map Ev.echo
        ++ (sortStr (filesOf env a pd)).map Ev.readF
        ++ [.clipTry (clipTextOf env a pd (filesOf env a pd)),
            .echo (statusOf env a pd (filesOf env a pd))]
        ++ (match o with
            | none => []
            | some f =>
                [.fileW (filePathOf env f) (fileTextOf env a pd (filesOf env a pd)),
                 .echo ("\nContents of selected files saved to: " ++ filePathOf env f)])) := by
  have hmb := mainBody_reach env a pd o hitems hsel
  cases hcn : a.config_name with
  | none => simp only [runMain, hcn, hmb]
  | some cn =>
      have hl := hc cn hcn
      simp only [runMain, hcn, hl, if_true, hmb]

theorem selEvs_shape (env : Env) (a : Args) :
    ∀ x ∈ selEvs env a, (∃ s, x = Ev.echo s) ∨ ∃ l, x = Ev.prompt l := by
  intro x hx
  rcases a with ⟨d, out, ff, cn, ec, scn⟩
  unfold selEvs at hx
  cases cn with
  | none => simp at hx; exact Or.inr ⟨_, hx⟩
  | some c =>
      cases ec with
      | false => simp at hx; exact Or.inl ⟨_, hx⟩
      | true => simp at hx; exact Or.inr ⟨_, hx⟩

theorem saveEvs_shape (env : Env) (a : Args) (sel : List Nat) :
    ∀ x ∈ saveEvs env a sel, (∃ st, x = Ev.saveCfg st) ∨ ∃ s, x = Ev.echo s := by
  intro x hx
  rcases a with ⟨d, out, ff, cn, ec, scn⟩
  unfold saveEvs at hx
  cases scn with
  | none =>
      cases cn with
      | none => simp at hx
      | some c =>
          cases ec with
          | false => simp at hx
          | true =>
              simp at hx
              rcases hx with hx | hx
              · exact Or.inl ⟨_, hx⟩
              · exact Or.inr ⟨_, hx⟩
  | some snm =>
      cases cn with
      | none =>
          simp at hx
          rcases hx with hx | hx
          · exact Or.inl ⟨_, hx⟩
          · exact Or.inr ⟨_, hx⟩
      | some c =>
          cases ec with
          | false =>
              simp at hx
              rcases hx with hx | hx
              · exact Or.inl ⟨_, hx⟩
              · exact Or.inr ⟨_, hx⟩
          | true =>
              simp at hx
              rcases hx with hx | hx | hx | hx
              · exact Or.inl ⟨_, hx⟩
              · exact Or.inr ⟨_, hx⟩
              · exact Or.inl ⟨_, hx⟩
              · exact Or.inr ⟨_, hx⟩

/-! ## Claim theorems for the emitted artifact -/

/-- C2: every run that reaches the emission stage with a non-empty
selection hands the clipboard sink, and the file sink when requested,
a single concatenated document: the captured lines (starting with the
structure section), then the `SELECTED FILES:` listing of
project-relative paths, then the `CONTENT OF SELECTED FILES:` section
in which each file content slot is preceded by a separator header
carrying the file's project-relative path. -/
theorem claim_C2_artifact_shape (env : Env) (a : Args) (pd : String) (o : Option String)
    (hc : ConfigOk env a)
    (hitems : get_all_items env.listDir pd (env.fs pd) ≠ [])
    (hsel : selOf env a ≠ []) :
    (Ev.clipTry (clipTextOf env a pd (filesOf env a pd)) ∈ runMain env a pd o)
    ∧ clipTextOf env a pd (filesOf env a pd)
        = joinN (linesTwo env a pd (filesOf env a pd)) ++ contentHdr
            ++ joinN (collectParts env.readFile pd (filesOf env a pd))
    ∧ linesTwo env a pd (filesOf env a pd)
        = preLinesOf env a pd ++ saveMsgs a
            ++ "\nSELECTED FILES:" :: listingLines pd (filesOf env a pd)
    ∧ (preLinesOf env a pd).head? = some "PROJECT STRUCTURE :"
    ∧ listingLines pd (filesOf env a pd)
        = (sortStr (filesOf env a pd)).map (fun p => "- " ++ relTo pd p)
    ∧ collectParts env.readFile pd (filesOf env a pd)
        = (sortStr (filesOf env a pd)).flatMap
            (fun p => [hdrLine (relTo pd p), bodyLine env.readFile pd p])
    ∧ (∀ p ∈ filesOf env a pd,
        hdrLine (relTo pd p) ∈ collectParts env.readFile pd (filesOf env a pd))
    ∧ (∀ f, o = some f →
        Ev.fileW (filePathOf env f) (fileTextOf env a pd (filesOf env a pd))
          ∈ runMain env a pd o
        ∧ fileTextOf env a pd (filesOf env a pd)
            = joinN (linesTwo env a pd (filesOf env a pd)
                ++ [statusOf env a pd (filesOf env a pd)]) ++ contentHdr
                ++ joinN (collectParts env.readFile pd (filesOf env a pd))) := by
  rw [runMain_reach env a pd o hc hitems hsel]
  refine ⟨?_, rfl, rfl, rfl, rfl, rfl, ?_, ?_⟩
  · simp [List.mem_append]
  · intro p hp
    have hp' : p ∈ sortStr (filesOf env a pd) :=
      (sortStr_perm (filesOf env a pd)).mem_iff.mpr hp
    exact List.mem_flatMap.mpr ⟨p, hp', by simp⟩
  · rintro f rfl
    refine ⟨?_, rfl⟩
    simp [List.mem_append]

/-- C7: for every run that reaches emission, both the
`SELECTED FILES:` listing and the per-file content collection
enumerate the resolved file set in sorted order: the enumeration used
in the trace is a permutation of the resolved set, is sorted by the
lexicographic path order, and both the listing echoes and the file
reads appear in the trace contiguously in exactly that order. -/
theorem claim_C7_sorted_enumeration (env : Env) (a : Args) (pd : String)
    (o : Option String) (hc : ConfigOk env a)
    (hitems : get_all_items env.listDir pd (env.fs pd) ≠ [])
    (hsel : selOf env a ≠ []) :
    List.Perm (sortStr (filesOf env a pd)) (filesOf env a pd)
    ∧ (sortStr (filesOf env a pd)).Pairwise (fun x y => sle x y = true)
    ∧ listingLines pd (filesOf env a pd)
        = (sortStr (filesOf env a pd)).map (fun p => "- " ++ relTo pd p)
    ∧ ((Ev.echo "\nSELECTED FILES:")
        :: (listingLines pd (filesOf env a pd)).map Ev.echo)
        <:+: runMain env a pd o
    ∧ ((sortStr (filesOf env a pd)).map Ev.readF) <:+: runMain env a pd o := by
  rw [runMain_reach env a pd o hc hitems hsel]
  refine ⟨sortStr_perm _, sortStr_pairwise _, rfl, ?_, ?_⟩
  · refine ⟨structEvs env a pd ++ [.buildIndex pd] ++ selEvs env a
        ++ saveEvs env a (selOf env a),
      (sortStr (filesOf env a pd)).map Ev.readF
        ++ [.clipTry (clipTextOf env a pd (filesOf env a pd)),
            .echo (statusOf env a pd (filesOf env a pd))]
        ++ (match o with
            | none => []
            | some f =>
                [.fileW (filePathOf env f) (fileTextOf env a pd (filesOf env a pd)),
                 .echo ("\nContents of selected files saved to: " ++ filePathOf env f)]),
      ?_⟩
    simp [List.append_assoc]
  · refine ⟨structEvs env a pd ++ [.buildIndex pd] ++ selEvs env a
        ++ saveEvs env a (selOf env a)
        ++ (Ev.echo "\nSELECTED FILES:")
            :: (listingLines pd (filesOf env a pd)).map Ev.echo,
      [.clipTry (clipTextOf env a pd (filesOf env a pd)),
       .echo (statusOf env a pd (filesOf env a pd))]
        ++ (match o with
            | none => []
            | some f =>
                [.fileW (filePathOf env f) (fileTextOf env a pd (filesOf env a pd)),
                 .echo ("\nContents of selected files saved to: " ++ filePathOf env f)]),
      ?_⟩
    simp [List.append_assoc]

/-! ## Content collection: per-slot characterisation and isolation -/

theorem flatMap_pairs_get (h b : String → String) : ∀ (l : List String) (j : Nat)
    (p : String), l.get? j = some p →
    (l.flatMap fun q => [h q, b q]).get? (2 * j) = some (h p)
    ∧ (l.flatMap fun q => [h q, b q]).get? (2 * j + 1) = some (b p)
  | [], j, p, hp => by simp at hp
  | q :: l, 0, p, hp => by
      simp only [List.get?_cons_zero, Option.some.injEq] at hp
      subst hp
      constructor <;> simp [List.flatMap_cons]
  | q :: l, j + 1, p, hp => by
      simp only [List.get?_cons_succ] at hp
      obtain ⟨h1, h2⟩ := flatMap_pairs_get h b l j p hp
      have e1 : 2 * (j + 1) = 2 * j + 1 + 1 := by omega
      rw [e1]
      simp only [List.flatMap_cons, List.cons_append, List.nil_append,
        List.get?_cons_succ]
      exact ⟨h1, h2⟩

theorem flatMap_pairs_length (h b : String → String) : ∀ l : List String,
    (l.flatMap fun q => [h q, b q]).length = 2 * l.length
  | [] => rfl
  | q :: l => by
      simp [List.flatMap_cons, flatMap_pairs_length h b l]
      omega

theorem takeWhile_append_all {α : Type} (p : α → Bool) : ∀ (l₁ l₂ : List α),
    (∀ x ∈ l₁, p x = true) → (l₁ ++ l₂).takeWhile p = l₁ ++ l₂.takeWhile p
  | [], l₂, _ => rfl
  | a :: l₁, l₂, hall => by
      have ha := hall a (List.mem_cons_self a l₁)
      simp only [List.cons_append, List.takeWhile_cons, ha, if_true]
      rw [takeWhile_append_all p l₁ l₂ (fun x hx => hall x (List.mem_cons_of_mem a hx))]

/-! ## Structure updates that replace only the file reader -/

theorem structEvs_set_read (env : Env) (r : String → Except String String)
    (a : Args) (pd : String) :
    structEvs { env with readFile := r } a pd = structEvs env a pd := rfl

theorem selEvs_set_read (env : Env) (r : String → Except String String) (a : Args) :
    selEvs { env with readFile := r } a = selEvs env a := rfl

theorem selOf_set_read (env : Env) (r : String → Except String String) (a : Args) :
    selOf { env with readFile := r } a = selOf env a := rfl

theorem saveEvs_set_read (env : Env) (r : String → Except String String) (a : Args)
    (sel : List Nat) :
    saveEvs { env with readFile := r } a sel = saveEvs env a sel := rfl

theorem filesOf_set_read (env : Env) (r : String → Except String String) (a : Args)
    (pd : String) :
    filesOf { env with readFile := r } a pd = filesOf env a pd := rfl

theorem filePathOf_set_read (env : Env) (r : String → Except String String)
    (f : String) :
    filePathOf { env with readFile := r } f = filePathOf env f := rfl

theorem linesTwo_set_read (env : Env) (r : String → Except String String) (a : Args)
    (pd : String) (files : List String) :
    linesTwo { env with readFile := r } a pd files = linesTwo env a pd files := rfl

theorem clipTextOf_set_read_of_empty (env : Env) (r : String → Except String String)
    (a : Args) (pd : String) (files : List String) (h : sortStr files = []) :
    clipTextOf { env with readFile := r } a pd files = clipTextOf env a pd files := by
  simp only [clipTextOf, collectParts, h, linesTwo_set_read]
  rfl

theorem statusOf_set_read_of_empty (env : Env) (r : String → Except String String)
    (a : Args) (pd : String) (files : List String) (h : sortStr files = []) :
    statusOf { env with readFile := r } a pd files = statusOf env a pd files := by
  simp only [statusOf, clipTextOf_set_read_of_empty env r a pd files h]

theorem fileTextOf_set_read_of_empty (env : Env) (r : String → Except String String)
    (a : Args) (pd : String) (files : List String) (h : sortStr files = []) :
    fileTextOf { env with readFile := r } a pd files = fileTextOf env a pd files := by
  simp only [fileTextOf, collectParts, h, linesTwo_set_read,
    statusOf_set_read_of_empty env r a pd files h]
  rfl

theorem takeWhile_block (A : List Ev) (hA : ∀ x ∈ A, (!x.isReadF) = true)
    (S : List String) (C₁ C₂ : List Ev) (hC : S = [] → C₁ = C₂) :
    (A ++ (S.map Ev.readF ++ C₁)).takeWhile (fun e => !e.isReadF)
      = (A ++ (S.map Ev.readF ++ C₂)).takeWhile (fun e => !e.isReadF) := by
  rw [takeWhile_append_all _ A _ hA, takeWhile_append_all _ A _ hA]
  congr 1
  cases hS : S with
  | nil => rw [hC hS]
  | cons s S' => simp [List.takeWhile_cons, Ev.isReadF]

theorem preChunk_not_readF (env : Env) (a : Args) (pd : String) :
    ∀ x ∈ structEvs env a pd ++ [Ev.buildIndex pd] ++ selEvs env a
      ++ (saveEvs env a (selOf env a)
        ++ (Ev.echo "\nSELECTED FILES:")
            :: (listingLines pd (filesOf env a pd)).map Ev.echo),
      (!x.isReadF) = true := by
  intro x hx
  simp only [List.mem_append, List.mem_cons, List.not_mem_nil, or_false] at hx
  rcases hx with ((hx | hx) | hx) | hx | hx | hx
  · simp only [structEvs, List.mem_cons, List.not_mem_nil, or_false] at hx
    rcases hx with rfl | rfl | rfl | rfl <;> rfl
  · subst hx; rfl
  · rcases selEvs_shape env a x hx with ⟨s, rfl⟩ | ⟨l, rfl⟩ <;> rfl
  · rcases saveEvs_shape env a (selOf env a) x hx with ⟨st, rfl⟩ | ⟨s, rfl⟩ <;> rfl
  · subst hx; rfl
  · rcases List.mem_map.mp hx with ⟨s, _, rfl⟩
    rfl

theorem mainBody_read_indep (env : Env) (r₁ r₂ : String → Except String String)
    (a : Args) (pd : String) (o : Option String) :
    (mainBody { env with readFile := r₁ } a pd o).takeWhile (fun e => !e.isReadF)
      = (mainBody { env with readFile := r₂ } a pd o).takeWhile (fun e => !e.isReadF) := by
  by_cases hitems : get_all_items env.listDir pd (env.fs pd) = []
  · simp only [mainBody, structEvs_set_read, selEvs_set_read, selOf_set_read]
    rw [if_pos hitems, if_pos hitems]
  · by_cases hsel : selOf env a = []
    · simp only [mainBody, structEvs_set_read, selEvs_set_read, selOf_set_read]
      rw [if_neg hitems, if_neg hitems, if_pos hsel, if_pos hsel]
    · rw [mainBody_reach { env with readFile := r₁ } a pd o hitems hsel,
        mainBody_reach { env with readFile := r₂ } a pd o hitems hsel]
      simp only [structEvs_set_read, selEvs_set_read, selOf_set_read,
        saveEvs_set_read, filesOf_set_read, filePathOf_set_read]
      have hsh : ∀ (Y Z : List Ev),
          structEvs env a pd ++ [Ev.buildIndex pd] ++ selEvs env a
            ++ (saveEvs env a (selOf env a)
              ++ (Ev.echo "\nSELECTED FILES:")
                  :: (listingLines pd (filesOf env a pd)).map Ev.echo
              ++ (sortStr (filesOf env a pd)).map Ev.readF ++ Y ++ Z)
          = (structEvs env a pd ++ [Ev.buildIndex pd] ++ selEvs env a
            ++ (saveEvs env a (selOf env a)
              ++ (Ev.echo "\nSELECTED FILES:")
                  :: (listingLines pd (filesOf env a pd)).map Ev.echo))
            ++ ((sortStr (filesOf env a pd)).map Ev.readF ++ (Y ++ Z)) := by
        intro Y Z
        simp [List.append_assoc]
      rw [hsh, hsh]
      refine takeWhile_block _ (preChunk_not_readF env a pd) _ _ _ ?_
      intro hS
      simp only [clipTextOf_set_read_of_empty env r₁ a pd _ hS,
        clipTextOf_set_read_of_empty env r₂ a pd _ hS,
        statusOf_set_read_of_empty env r₁ a pd _ hS,
        statusOf_set_read_of_empty env r₂ a pd _ hS,
        fileTextOf_set_read_of_empty env r₁ a pd _ hS,
        fileTextOf_set_read_of_empty env r₂ a pd _ hS]

theorem runMain_read_indep (env : Env) (r₁ r₂ : String → Except String String)
    (a : Args) (pd : String) (o : Option String) :
    (runMain { env with readFile := r₁ } a pd o).takeWhile (fun e => !e.isReadF)
      = (runMain { env with readFile := r₂ } a pd o).takeWhile (fun e => !e.isReadF) := by
  cases hcn : a.config_name with
  | none =>
      simp only [runMain, hcn]
      exact mainBody_read_indep env r₁ r₂ a pd o
  | some cn =>
      by_cases hl : (env.configs.lookup cn).isSome = true
      · simp only [runMain, hcn]
        rw [if_pos hl, if_pos hl]
        exact mainBody_read_indep env r₁ r₂ a pd o
      · simp only [runMain, hcn]
        rw [if_neg hl, if_neg hl]
        simp only [structEvs_set_read]

/-! ## Early-termination traces and joined text -/

theorem mem_structEvs_cases (env : Env) (a : Args) (pd : String) (x : Ev)
    (hx : x ∈ structEvs env a pd) :
    (∃ f d, x = Ev.render f d) ∨ (∃ s, x = Ev.echo s) ∨ x = Ev.loadConfigs := by
  simp only [structEvs, List.mem_cons, List.not_mem_nil, or_false] at hx
  rcases hx with rfl | rfl | rfl | rfl
  · exact Or.inl ⟨_, _, rfl⟩
  · exact Or.inr (Or.inl ⟨_, rfl⟩)
  · exact Or.inr (Or.inl ⟨_, rfl⟩)
  · exact Or.inr (Or.inr rfl)

theorem mem_nosel_events (env : Env) (a : Args) (pd : String) (msg : String) (x : Ev)
    (hx : x ∈ structEvs env a pd ++ [Ev.buildIndex pd] ++ selEvs env a
      ++ [Ev.echo msg]) :
    (∃ f d, x = Ev.render f d) ∨ (∃ s, x = Ev.echo s) ∨ x = Ev.loadConfigs
      ∨ (∃ d, x = Ev.buildIndex d) ∨ ∃ l, x = Ev.prompt l := by
  simp only [List.mem_append, List.mem_cons, List.not_mem_nil, or_false] at hx
  rcases hx with ((hx | rfl) | hx) | rfl
  · rcases mem_structEvs_cases env a pd x hx with h | h | h
    · exact Or.inl h
    · exact Or.inr (Or.inl h)
    · exact Or.inr (Or.inr (Or.inl h))
  · exact Or.inr (Or.inr (Or.inr (Or.inl ⟨_, rfl⟩)))
  · rcases selEvs_shape env a x hx with h | h
    · exact Or.inr (Or.inl h)
    · exact Or.inr (Or.inr (Or.inr (Or.inr h)))
  · exact Or.inr (Or.inl ⟨_, rfl⟩)

theorem mem_nofiles_events (env : Env) (a : Args) (pd : String) (msg : String) (x : Ev)
    (hx : x ∈ structEvs env a pd ++ [Ev.buildIndex pd, Ev.echo msg]) :
    (∃ f d, x = Ev.render f d) ∨ (∃ s, x = Ev.echo s) ∨ x = Ev.loadConfigs
      ∨ (∃ d, x = Ev.buildIndex d) ∨ ∃ l, x = Ev.prompt l := by
  simp only [List.mem_append, List.mem_cons, List.not_mem_nil, or_false] at hx
  rcases hx with hx | rfl | rfl
  · rcases mem_structEvs_cases env a pd x hx with h | h | h
    · exact Or.inl h
    · exact Or.inr (Or.inl h)
    · exact Or.inr (Or.inr (Or.inl h))
  · exact Or.inr (Or.inr (Or.inr (Or.inl ⟨_, rfl⟩)))
  · exact Or.inr (Or.inl ⟨_, rfl⟩)

theorem mem_err_events (env : Env) (a : Args) (pd : String) (msg : String) (x : Ev)
    (hx : x ∈ structEvs env a pd ++ [Ev.err msg]) :
    (∃ f d, x = Ev.render f d) ∨ (∃ s, x = Ev.echo s) ∨ x = Ev.loadConfigs
      ∨ x = Ev.err msg := by
  simp only [List.mem_append, List.mem_cons, List.not_mem_nil, or_false] at hx
  rcases hx with hx | rfl
  · rcases mem_structEvs_cases env a pd x hx with h | h | h
    · exact Or.inl h
    · exact Or.inr (Or.inl h)
    · exact Or.inr (Or.inr (Or.inl h))
  · exact Or.inr (Or.inr (Or.inr rfl))

theorem joinN_append_singleton : ∀ (L : List String) (s : String), L ≠ [] →
    joinN (L ++ [s]) = joinN L ++ "\n" ++ s
  | [], _, h => absurd rfl h
  | [a], s, _ => rfl
  | a :: b :: L, s, _ => by
      show a ++ "\n" ++ joinN ((b :: L) ++ [s]) = a ++ "\n" ++ joinN (b :: L) ++ "\n" ++ s
      rw [joinN_append_singleton (b :: L) s (by simp)]
      simp only [String.append_assoc]

/-! ## Claim theorems for error handling and sinks -/

/-- C3: the content collector gives every selected file its own
header-and-content slot: the slot content is the decoded text on
success and the inline `Error reading <path>: <message>` line on
failure, every later file keeps its slot, and changing the file reader
never changes the trace before the first file read (the structure and
selection listing are unchanged and the run is not aborted), nor does
it stop a run that reaches emission from reaching the clipboard. -/
theorem claim_C3_read_failure_isolated (read : String → Except String String)
    (root : String) (files : List String) (j : Nat) (p : String)
    (hj : (sortStr files).get? j = some p) :
    (collectParts read root files).get? (2 * j) = some (hdrLine (relTo root p))
    ∧ (collectParts read root files).get? (2 * j + 1) = some (bodyLine read root p)
    ∧ bodyLine read root p = (match read p with
        | Except.ok c => c
        | Except.error e => "Error reading " ++ relTo root p ++ ": " ++ e)
    ∧ (collectParts read root files).length = 2 * (sortStr files).length
    ∧ (∀ (env : Env) (r₂ : String → Except String String) (a : Args) (pd : String)
        (o : Option String),
        (runMain { env with readFile := read } a pd o).takeWhile (fun e => !e.isReadF)
          = (runMain { env with readFile := r₂ } a pd o).takeWhile (fun e => !e.isReadF))
    ∧ (∀ (env : Env) (a : Args) (pd : String) (o : Option String),
        ConfigOk env a → get_all_items env.listDir pd (env.fs pd) ≠ [] →
        selOf env a ≠ [] →
        Ev.clipTry (clipTextOf env a pd (filesOf env a pd)) ∈ runMain env a pd o) := by
  obtain ⟨h1, h2⟩ := flatMap_pairs_get (fun q => hdrLine (relTo root q))
    (fun q => bodyLine read root q) (sortStr files) j p hj
  refine ⟨h1, h2, rfl, flatMap_pairs_length _ _ _,
    fun env r₂ a pd o => runMain_read_indep env read r₂ a pd o,
    fun env a pd o hc hi hs => ?_⟩
  rw [runMain_reach env a pd o hc hi hs]
  simp [List.mem_append]

/-- C4: a run whose built Index is empty, or whose selection is empty,
terminates early and validly after a single additional message: the
trace is exactly the structure display followed by the message, with
no content collection, no clipboard attempt, no file write and no
error, whatever the remaining options are. -/
theorem claim_C4_empty_short_circuit (env : Env) (a : Args) (pd : String)
    (o : Option String) (hc : ConfigOk env a)
    (h : get_all_items env.listDir pd (env.fs pd) = [] ∨ selOf env a = []) :
    (runMain env a pd o = structEvs env a pd
        ++ [Ev.buildIndex pd, Ev.echo "No files found (or all files are ignored)."]
      ∨ runMain env a pd o = structEvs env a pd ++ [Ev.buildIndex pd] ++ selEvs env a
        ++ [Ev.echo "No items selected."])
    ∧ (∀ s, Ev.clipTry s ∉ runMain env a pd o)
    ∧ (∀ q, Ev.readF q ∉ runMain env a pd o)
    ∧ (∀ q t, Ev.fileW q t ∉ runMain env a pd o)
    ∧ (∀ m, Ev.err m ∉ runMain env a pd o) := by
  have hrm : runMain env a pd o = mainBody env a pd o := by
    cases hcn : a.config_name with
    | none => simp only [runMain, hcn]
    | some cn => simp only [runMain, hcn, hc cn hcn, if_true]
  have hmb : mainBody env a pd o = structEvs env a pd
        ++ [Ev.buildIndex pd, Ev.echo "No files found (or all files are ignored)."]
      ∨ mainBody env a pd o = structEvs env a pd ++ [Ev.buildIndex pd] ++ selEvs env a
        ++ [Ev.echo "No items selected."] := by
    by_cases hi : get_all_items env.listDir pd (env.fs pd) = []
    · left
      simp only [mainBody]
      rw [if_pos hi]
    · right
      have hs : selOf env a = [] := by
        rcases h with h | h
        · exact absurd h hi
        · exact h
      simp only [mainBody]
      rw [if_neg hi, if_pos hs]
  have hshape : ∀ x ∈ runMain env a pd o,
      (∃ f d, x = Ev.render f d) ∨ (∃ s, x = Ev.echo s) ∨ x = Ev.loadConfigs
        ∨ (∃ d, x = Ev.buildIndex d) ∨ ∃ l, x = Ev.prompt l := by
    intro x hx
    rw [hrm] at hx
    rcases hmb with he | he
    · rw [he] at hx
      exact mem_nofiles_events env a pd _ x hx
    · rw [he] at hx
      exact mem_nosel_events env a pd _ x hx
  refine ⟨by rw [hrm]; exact hmb, ?_, ?_, ?_, ?_⟩
  · intro s hs
    rcases hshape _ hs with ⟨f, d, h'⟩ | ⟨s', h'⟩ | h' | ⟨d, h'⟩ | ⟨l, h'⟩ <;> simp at h'
  · intro q hs
    rcases hshape _ hs with ⟨f, d, h'⟩ | ⟨s', h'⟩ | h' | ⟨d, h'⟩ | ⟨l, h'⟩ <;> simp at h'
  · intro q t hs
    rcases hshape _ hs with ⟨f, d, h'⟩ | ⟨s', h'⟩ | h' | ⟨d, h'⟩ | ⟨l, h'⟩ <;> simp at h'
  · intro m hs
    rcases hshape _ hs with ⟨f, d, h'⟩ | ⟨s', h'⟩ | h' | ⟨d, h'⟩ | ⟨l, h'⟩ <;> simp at h'

/-- C5 (amended): an invalid root directory is fatal and detected
before any traversal or rendering (the trace is the single error
event); an unknown named profile is fatal and detected before the
Index is built, the prompt, the resolver and every sink — but only
after the project structure has already been rendered and displayed
(cli.py renders at lines 99-107, loads profiles at lines 110-114). -/
theorem claim_C5_config_errors (env : Env) (a : Args) :
    (a.file_flag = none → env.isdir a.directory = false →
      treeproRun env a = [Ev.err ("Directory " ++ a.directory ++ " does not exist.")])
    ∧ (∀ cn pd o, a.config_name = some cn → env.configs.lookup cn = none →
        runMain env a pd o
          = structEvs env a pd ++ [Ev.err ("Configurazione " ++ cn ++ " non trovata.")]
        ∧ (∀ d, Ev.buildIndex d ∉ runMain env a pd o)
        ∧ (∀ l, Ev.prompt l ∉ runMain env a pd o)
        ∧ (∀ s, Ev.clipTry s ∉ runMain env a pd o)
        ∧ (∀ q t, Ev.fileW q t ∉ runMain env a pd o)
        ∧ (∀ st, Ev.saveCfg st ∉ runMain env a pd o)) := by
  constructor
  · intro hff hdir
    simp only [treeproRun, hff, hdir, Bool.false_eq_true, if_false]
  · intro cn pd o hcn hlook
    have herr : runMain env a pd o
        = structEvs env a pd ++ [Ev.err ("Configurazione " ++ cn ++ " non trovata.")] := by
      simp only [runMain, hcn, hlook, Option.isSome_none, Bool.false_eq_true, if_false]
    have hshape : ∀ x ∈ runMain env a pd o,
        (∃ f d, x = Ev.render f d) ∨ (∃ s, x = Ev.echo s) ∨ x = Ev.loadConfigs
          ∨ x = Ev.err ("Configurazione " ++ cn ++ " non trovata.") := by
      intro x hx
      rw [herr] at hx
      exact mem_err_events env a pd _ x hx
    refine ⟨herr, ?_, ?_, ?_, ?_, ?_⟩
    · intro d hs
      rcases hshape _ hs with ⟨f, d', h'⟩ | ⟨s', h'⟩ | h' | h' <;> simp at h'
    · intro l hs
      rcases hshape _ hs with ⟨f, d', h'⟩ | ⟨s', h'⟩ | h' | h' <;> simp at h'
    · intro s hs
      rcases hshape _ hs with ⟨f, d', h'⟩ | ⟨s', h'⟩ | h' | h' <;> simp at h'
    · intro q t hs
      rcases hshape _ hs with ⟨f, d', h'⟩ | ⟨s', h'⟩ | h' | h' <;> simp at h'
    · intro st hs
      rcases hshape _ hs with ⟨f, d', h'⟩ | ⟨s', h'⟩ | h' | h' <;> simp at h'

/-- Counterexample to C5 as stated: with an unknown profile name the
run does raise a fatal error, but the project tree has already been
rendered when it does — the trace up to the error contains the
renderer call, refuting detection before any core traversal or
rendering begins. -/
theorem claim_C5_counterexample :
    ((treeproRun envA { argsA with config_name := some "missing" }).takeWhile
        (fun e => !e.isErr)).any (fun e => e.isRender) = true
    ∧ Ev.err "Configurazione missing non trovata."
        ∈ treeproRun envA { argsA with config_name := some "missing" } := by
  constructor
  · decide
  · decide


theorem runMain_reach_not_err (env : Env) (a : Args) (pd : String) (o : Option String)
    (hc : ConfigOk env a)
    (hitems : get_all_items env.listDir pd (env.fs pd) ≠ [])
    (hsel : selOf env a ≠ []) :
    ∀ x ∈ runMain env a pd o, x.isErr = false := by
  intro x hx
  rw [runMain_reach env a pd o hc hitems hsel] at hx
  simp only [List.mem_append, List.mem_cons, List.not_mem_nil, or_false] at hx
  rcases hx with ((hx | hx) | hx) | ((((hx | hx | hx) | hx) | hx | hx) | hx)
  · rcases mem_structEvs_cases env a pd _ hx with ⟨f, d, h'⟩ | ⟨s', h'⟩ | h' <;>
      subst h' <;> rfl
  · subst hx; rfl
  · rcases selEvs_shape env a _ hx with ⟨s', h'⟩ | ⟨l, h'⟩ <;> subst h' <;> rfl
  · rcases saveEvs_shape env a (selOf env a) _ hx with ⟨st, h'⟩ | ⟨s', h'⟩ <;>
      subst h' <;> rfl
  · subst hx; rfl
  · rcases List.mem_map.mp hx with ⟨s', _, rfl⟩
    rfl
  · rcases List.mem_map.mp hx with ⟨s', _, rfl⟩
    rfl
  · subst hx; rfl
  · subst hx; rfl
  · cases o with
    | none => simp at hx
    | some f =>
        simp only [List.mem_cons, List.not_mem_nil, or_false] at hx
        rcases hx with rfl | rfl <;> rfl

/-- C8: a clipboard failure is non-fatal: the failure is reported via
the captured status line, the file sink is still written (and its
completion reported) when an output file was requested, and the run
raises no error. -/
theorem claim_C8_clipboard_failure_nonfatal (env : Env) (a : Args) (pd : String)
    (o : Option String) (m : String) (hc : ConfigOk env a)
    (hitems : get_all_items env.listDir pd (env.fs pd) ≠ [])
    (hsel : selOf env a ≠ [])
    (hclip : ∀ s, env.clipboard s = some m) :
    Ev.echo ("\nFailed to copy to clipboard: " ++ m) ∈ runMain env a pd o
    ∧ (∀ f, o = some f →
        Ev.fileW (filePathOf env f) (fileTextOf env a pd (filesOf env a pd))
          ∈ runMain env a pd o
        ∧ Ev.echo ("\nContents of selected files saved to: " ++ filePathOf env f)
          ∈ runMain env a pd o)
    ∧ (∀ e, Ev.err e ∉ runMain env a pd o) := by
  have hst : statusOf env a pd (filesOf env a pd)
      = "\nFailed to copy to clipboard: " ++ m := by
    simp only [statusOf, hclip]
  refine ⟨?_, ?_, ?_⟩
  · rw [runMain_reach env a pd o hc hitems hsel, ← hst]
    simp [List.mem_append]
  · rintro f rfl
    rw [runMain_reach env a pd (some f) hc hitems hsel]
    constructor <;> simp [List.mem_append]
  · intro e he
    have := runMain_reach_not_err env a pd o hc hitems hsel _ he
    simp [Ev.isErr] at this

/-- C9: when a run reaches emission with an output file requested, the
text written to the file is not the text handed to the clipboard: the
clipboard status line is captured into the output buffer between the
clipboard attempt and the file write, so the file text joins the
clipboard's captured lines plus that status line, and the two texts
differ. -/
theorem claim_C9_file_text_differs (env : Env) (a : Args) (pd : String) (f : String)
    (hc : ConfigOk env a)
    (hitems : get_all_items env.listDir pd (env.fs pd) ≠ [])
    (hsel : selOf env a ≠ []) :
    Ev.clipTry (clipTextOf env a pd (filesOf env a pd)) ∈ runMain env a pd (some f)
    ∧ Ev.fileW (filePathOf env f) (fileTextOf env a pd (filesOf env a pd))
        ∈ runMain env a pd (some f)
    ∧ clipTextOf env a pd (filesOf env a pd)
        = joinN (linesTwo env a pd (filesOf env a pd)) ++ contentHdr
            ++ joinN (collectParts env.readFile pd (filesOf env a pd))
    ∧ fileTextOf env a pd (filesOf env a pd)
        = joinN (linesTwo env a pd (filesOf env a pd)
            ++ [statusOf env a pd (filesOf env a pd)]) ++ contentHdr
            ++ joinN (collectParts env.readFile pd (filesOf env a pd))
    ∧ (statusOf env a pd (filesOf env a pd) = okClipMsg
        ∨ ∃ e, statusOf env a pd (filesOf env a pd)
            = "\nFailed to copy to clipboard: " ++ e)
    ∧ fileTextOf env a pd (filesOf env a pd) ≠ clipTextOf env a pd (filesOf env a pd) := by
  refine ⟨?_, ?_, rfl, rfl, ?_, ?_⟩
  · rw [runMain_reach env a pd (some f) hc hitems hsel]
    simp [List.mem_append]
  · rw [runMain_reach env a pd (some f) hc hitems hsel]
    simp [List.mem_append]
  · unfold statusOf
    cases env.clipboard (clipTextOf env a pd (filesOf env a pd)) with
    | none => exact Or.inl rfl
    | some e => exact Or.inr ⟨e, rfl⟩
  · intro hEq
    have hL : linesTwo env a pd (filesOf env a pd) ≠ [] := by
      simp [linesTwo, preLinesOf, structLines]
    have hj := joinN_append_singleton (linesTwo env a pd (filesOf env a pd))
      (statusOf env a pd (filesOf env a pd)) hL
    unfold fileTextOf clipTextOf at hEq
    rw [hj] at hEq
    have hlen := congrArg String.length hEq
    simp only [String.length_append] at hlen
    have h1 : ("\n" : String).length = 1 := rfl
    rw [h1] at hlen
    omega

/-- C10: a run whose selection is empty never writes the configuration
store: the early return on an empty selection precedes the profile
save step, so no profile is created or updated, whatever the options
(in particular with `--save-config` or `--config --edit-config`). -/
theorem claim_C10_no_save_on_empty_selection (env : Env) (a : Args) (pd : String)
    (o : Option String) (hsel : selOf env a = []) :
    ∀ st, Ev.saveCfg st ∉ runMain env a pd o := by
  intro st hmem
  have hnosave : ∀ x ∈ mainBody env a pd o,
      (∃ f d, x = Ev.render f d) ∨ (∃ s, x = Ev.echo s) ∨ x = Ev.loadConfigs
        ∨ (∃ d, x = Ev.buildIndex d) ∨ ∃ l, x = Ev.prompt l := by
    intro x hx
    by_cases hi : get_all_items env.listDir pd (env.fs pd) = []
    · simp only [mainBody] at hx
      rw [if_pos hi] at hx
      exact mem_nofiles_events env a pd _ x hx
    · simp only [mainBody] at hx
      rw [if_neg hi, if_pos hsel] at hx
      exact mem_nosel_events env a pd _ x hx
  cases hcn : a.config_name with
  | none =>
      simp only [runMain, hcn] at hmem
      rcases hnosave _ hmem with ⟨f, d, h'⟩ | ⟨s', h'⟩ | h' | ⟨d, h'⟩ | ⟨l, h'⟩ <;>
        simp at h'
  | some cn =>
      by_cases hl : (env.configs.lookup cn).isSome = true
      · simp only [runMain, hcn] at hmem
        rw [if_pos hl] at hmem
        rcases hnosave _ hmem with ⟨f, d, h'⟩ | ⟨s', h'⟩ | h' | ⟨d, h'⟩ | ⟨l, h'⟩ <;>
          simp at h'
      · simp only [runMain, hcn] at hmem
        rw [if_neg hl] at hmem
        rcases mem_err_events env a pd _ _ hmem with ⟨f, d, h'⟩ | ⟨s', h'⟩ | h' | h' <;>
          simp at h'

/-! ## Witnesses instantiating the claim theorems -/

/-- Witness for C2: the happy-path run over the demo tree reaches the
clipboard with the concatenated document. -/
theorem claim_C2_artifact_shape_witness :
    ConfigOk envA argsA
    ∧ get_all_items envA.listDir "." (envA.fs ".") ≠ []
    ∧ selOf envA argsA ≠ []
    ∧ Ev.clipTry (clipTextOf envA argsA "." (filesOf envA argsA "."))
        ∈ runMain envA argsA "." none :=
  ⟨(fun _ h => nomatch h), by decide, by decide,
   (claim_C2_artifact_shape envA argsA "." none (fun _ h => nomatch h)
      (by decide) (by decide)).1⟩

/-- Witness for C3: a run whose reader fails on the first sorted file
still fills both slots of that file. -/
theorem claim_C3_read_failure_isolated_witness :
    (sortStr ["b/b.txt", "b/a.txt"]).get? 0 = some "b/a.txt"
    ∧ (collectParts
          (fun p => if p == "b/a.txt" then Except.error "gone" else Except.ok "DATA")
          "b" ["b/b.txt", "b/a.txt"]).get? (2 * 0)
        = some (hdrLine (relTo "b" "b/a.txt")) :=
  ⟨by decide,
   (claim_C3_read_failure_isolated
      (fun p => if p == "b/a.txt" then Except.error "gone" else Except.ok "DATA")
      "b" ["b/b.txt", "b/a.txt"] 0 "b/a.txt" (by decide)).1⟩

/-- Witness for C4: a cancelled prompt short-circuits the pipeline. -/
theorem claim_C4_empty_short_circuit_witness :
    ConfigOk { envA with promptResult := none } argsA
    ∧ (get_all_items ({ envA with promptResult := none }).listDir "."
          (({ envA with promptResult := none }).fs ".") = []
        ∨ selOf { envA with promptResult := none } argsA = [])
    ∧ ∀ s, Ev.clipTry s ∉ runMain { envA with promptResult := none } argsA "." none :=
  ⟨(fun _ h => nomatch h), Or.inr rfl,
   (claim_C4_empty_short_circuit { envA with promptResult := none } argsA "." none
      (fun _ h => nomatch h) (Or.inr rfl)).2.1⟩

/-- Witness for C5 (amended): an invalid root yields the bare error
trace; an unknown profile yields the error right after the structure
display. -/
theorem claim_C5_config_errors_witness :
    treeproRun { envA with isdir := fun _ => false } argsA
      = [Ev.err ("Directory " ++ argsA.directory ++ " does not exist.")]
    ∧ runMain envA { argsA with config_name := some "missing" } "." none
        = structEvs envA { argsA with config_name := some "missing" } "."
          ++ [Ev.err ("Configurazione " ++ "missing" ++ " non trovata.")] :=
  ⟨(claim_C5_config_errors { envA with isdir := fun _ => false } argsA).1 rfl rfl,
   ((claim_C5_config_errors envA { argsA with config_name := some "missing" }).2
      "missing" "." none rfl rfl).1⟩

/-- Witness for C7: the happy-path enumeration is a sorted permutation
of the resolved set. -/
theorem claim_C7_sorted_enumeration_witness :
    ConfigOk envA argsA
    ∧ get_all_items envA.listDir "." (envA.fs ".") ≠ []
    ∧ selOf envA argsA ≠ []
    ∧ List.Perm (sortStr (filesOf envA argsA ".")) (filesOf envA argsA ".") :=
  ⟨(fun _ h => nomatch h), by decide, by decide,
   (claim_C7_sorted_enumeration envA argsA "." none (fun _ h => nomatch h)
      (by decide) (by decide)).1⟩

/-- Witness for C8: a run whose clipboard always fails still reports
the failure and completes. -/
theorem claim_C8_clipboard_failure_nonfatal_witness :
    (∀ s, ({ envA with clipboard := fun _ => some "unavailable" } : Env).clipboard s
        = some "unavailable")
    ∧ Ev.echo ("\nFailed to copy to clipboard: " ++ "unavailable")
        ∈ runMain { envA with clipboard := fun _ => some "unavailable" } argsA "." none :=
  ⟨fun s => rfl,
   (claim_C8_clipboard_failure_nonfatal
      { envA with clipboard := fun _ => some "unavailable" } argsA "." none
      "unavailable" (fun _ h => nomatch h) (by decide) (by decide)
      (fun s => rfl)).1⟩

/-- Witness for C9: on the demo run with an output file the file text
differs from the clipboard text. -/
theorem claim_C9_file_text_differs_witness :
    ConfigOk envA argsA
    ∧ get_all_items envA.listDir "." (envA.fs ".") ≠ []
    ∧ selOf envA argsA ≠ []
    ∧ fileTextOf envA argsA "." (filesOf envA argsA ".")
        ≠ clipTextOf envA argsA "." (filesOf envA argsA ".") :=
  ⟨(fun _ h => nomatch h), by decide, by decide,
   (claim_C9_file_text_differs envA argsA "." "out.txt" (fun _ h => nomatch h)
      (by decide) (by decide)).2.2.2.2.2⟩

/-- Witness for C10: a cancelled prompt with `--save-config` requested
writes no profile. -/
theorem claim_C10_no_save_on_empty_selection_witness :
    selOf { envA with promptResult := none }
        { argsA with save_config_name := some "p" } = []
    ∧ ∀ st, Ev.saveCfg st ∉ runMain { envA with promptResult := none }
        { argsA with save_config_name := some "p" } "." none :=
  ⟨rfl,
   claim_C10_no_save_on_empty_selection { envA with promptResult := none }
     { argsA with save_config_name := some "p" } "." none rfl⟩
